import Mathlib

/-!
Verification of the IronLog logs API (`app.py`).

The development shallowly embeds the data model, the validators, the Drive
folder state and the HTTP handlers of the service.  The folder is a list of
(filename, content) pairs; fallible handlers return `Except HTTPException`.
Python strings are modelled through their character lists; `str.lower` is
modelled on its ASCII fragment, which is the fragment the service's data
(workout types, muscle labels, dates) lives in.
-/

namespace Ironlog

/-! ### Python string primitives -/

/-- Default whitespace stripped by `str.strip()` (the ASCII whitespace set). -/
def pyIsSpace (c : Char) : Bool :=
  c = ' ' || c = '\t' || c = '\n' || c = '\r' || c = '\x0b' || c = '\x0c'

/-- The uppercase/lowercase pairs of `str.lower()` restricted to ASCII. -/
def lowerPairs : List (Char × Char) :=
  [('A','a'),('B','b'),('C','c'),('D','d'),('E','e'),('F','f'),('G','g'),
   ('H','h'),('I','i'),('J','j'),('K','k'),('L','l'),('M','m'),('N','n'),
   ('O','o'),('P','p'),('Q','q'),('R','r'),('S','s'),('T','t'),('U','u'),
   ('V','v'),('W','w'),('X','x'),('Y','y'),('Z','z')]

def lookupLower (c : Char) : List (Char × Char) → Option Char
  | [] => none
  | (u, l) :: rest => if c = u then some l else lookupLower c rest

def asciiLower (c : Char) : Char := (lookupLower c lowerPairs).getD c

/-- `s.lower()` on character lists. -/
def pyLowerL (l : List Char) : List Char := l.map asciiLower

/-- `s.strip()` on character lists: drop whitespace from both ends. -/
def pyStripL (l : List Char) : List Char :=
  ((l.dropWhile pyIsSpace).reverse.dropWhile pyIsSpace).reverse

/-- `s.strip()`. -/
def pyStrip (s : String) : String := ⟨pyStripL s.data⟩

/-- `s.lower()`. -/
def pyLower (s : String) : String := ⟨pyLowerL s.data⟩

/-- `s.strip().lower()`, the normalisation used throughout the service. -/
def stripLowerS (s : String) : String := pyLower (pyStrip s)

/-! ### The date validator: `datetime.strptime(v, "%Y-%m-%d")`

CPython compiles the format to the regular expression
`(?P<Y>\d\d\d\d)\-(?P<m>1[0-2]|0[1-9]|[1-9])\-(?P<d>3[01]|[12]\d|0[1-9]|[1-9])`,
requires the whole string to be consumed, and then builds
`datetime(year, month, day)`, which rejects year 0 and days beyond the
month length.  `monthCands`/`dayCands` enumerate the regex alternatives in
order, with the remaining input, so `any` realises the backtracking. -/

def isDigitCh (c : Char) : Bool := decide ('0' ≤ c) && decide (c ≤ '9')

def digitVal (c : Char) : Nat := c.toNat - '0'.toNat

def monthCands : List Char → List (Nat × List Char)
  | [] => []
  | c1 :: rest1 =>
    (match c1, rest1 with
     | '1', c2 :: rest2 =>
       if c2 = '0' ∨ c2 = '1' ∨ c2 = '2' then [(10 + digitVal c2, rest2)] else []
     | '0', c2 :: rest2 =>
       if '1' ≤ c2 ∧ c2 ≤ '9' then [(digitVal c2, rest2)] else []
     | _, _ => [])
    ++ (if '1' ≤ c1 ∧ c1 ≤ '9' then [(digitVal c1, rest1)] else [])

def dayCands : List Char → List (Nat × List Char)
  | [] => []
  | c1 :: rest1 =>
    (match c1, rest1 with
     | '3', c2 :: rest2 =>
       if c2 = '0' ∨ c2 = '1' then [(30 + digitVal c2, rest2)] else []
     | '1', c2 :: rest2 =>
       if '0' ≤ c2 ∧ c2 ≤ '9' then [(10 + digitVal c2, rest2)] else []
     | '2', c2 :: rest2 =>
       if '0' ≤ c2 ∧ c2 ≤ '9' then [(20 + digitVal c2, rest2)] else []
     | '0', c2 :: rest2 =>
       if '1' ≤ c2 ∧ c2 ≤ '9' then [(digitVal c2, rest2)] else []
     | _, _ => [])
    ++ (if '1' ≤ c1 ∧ c1 ≤ '9' then [(digitVal c1, rest1)] else [])

def isLeap (y : Nat) : Bool := y % 4 == 0 && (y % 100 != 0 || y % 400 == 0)

def daysInMonth (y m : Nat) : Nat :=
  if m = 2 then (if isLeap y then 29 else 28)
  else if m = 4 ∨ m = 6 ∨ m = 9 ∨ m = 11 then 30 else 31

/-- The `date_iso` validator of `WorkoutLog`: true iff
`datetime.strptime(s, "%Y-%m-%d")` succeeds. -/
def date_iso (s : String) : Bool :=
  match s.data with
  | c1 :: c2 :: c3 :: c4 :: '-' :: rest =>
    isDigitCh c1 && isDigitCh c2 && isDigitCh c3 && isDigitCh c4 &&
    (let y := ((digitVal c1 * 10 + digitVal c2) * 10 + digitVal c3) * 10 + digitVal c4
     (monthCands rest).any (fun mc =>
        match mc.2 with
        | '-' :: rest2 =>
          (dayCands rest2).any (fun dc =>
             dc.2.isEmpty && decide (1 ≤ y) && decide (dc.1 ≤ daysInMonth y mc.1))
        | _ => false))
  | _ => false

/-- The path-parameter constraint of `GET /logs/by-date/{date}`:
the regular expression `^\d{4}-\d{2}-\d{2}$`. -/
def datePattern (s : String) : Bool :=
  match s.data with
  | [a1, a2, a3, a4, '-', b1, b2, '-', d1, d2] =>
    isDigitCh a1 && isDigitCh a2 && isDigitCh a3 && isDigitCh a4 &&
    isDigitCh b1 && isDigitCh b2 && isDigitCh d1 && isDigitCh d2
  | _ => false

/-! ### Data model and validators -/

/-- One set of an exercise: `reps: int`, `weight: float` (modelled as `Rat`;
only the sign of the weight is ever inspected). -/
structure Set where
  reps : Int
  weight : Rat
deriving DecidableEq

structure Exercise where
  name : String
  sets : List Set
  target_muscles : Option (List String)
deriving DecidableEq

structure WorkoutLog where
  schema_version : Int
  date : String
  workout_type : Option String
  exercises : List Exercise
  notes : Option String
  session_id : String
deriving DecidableEq

/-- The `muscles_norm` validator of `Exercise.target_muscles`:
`[m.strip().lower() for m in v if isinstance(m, str) and m.strip()]`
(the field is already a validated `List[str]`, so the `isinstance` guard
always holds). -/
def muscles_norm : Option (List String) → Option (List String)
  | none => none
  | some v => some ((v.filter (fun m => !(pyStrip m == ""))).map (fun m => pyLower (pyStrip m)))

/-- The `workout_type_enum` validator, as a predicate on the value the
validated model stores (`v.strip().lower()`, required to be in the enum). -/
def wt_valid : Option String → Bool
  | none => true
  | some w => w == "push" || w == "pull" || w == "legs"

/-- The `at_least_one_set` validator of `WorkoutLog.exercises`:
accepts iff not (`not v or not any(e.sets for e in v)`). -/
def at_least_one_set (v : List Exercise) : Bool :=
  !(v.isEmpty || !(v.any (fun e => !e.sets.isEmpty)))

def valid_set (s : Set) : Bool := decide (1 ≤ s.reps) && decide (0 ≤ s.weight)

/-- An exercise as the validators leave it: non-blank name (`name_nonempty`),
per-set checks (`reps_positive`, `weight_nonneg`), and `target_muscles` a
fixed point of `muscles_norm`. -/
def valid_exercise (e : Exercise) : Bool :=
  !(pyStrip e.name == "") && e.sets.all valid_set &&
    (muscles_norm e.target_muscles == e.target_muscles)

/-- A `WorkoutLog` as accepted and stored by schema validation. -/
def validLog (l : WorkoutLog) : Bool :=
  date_iso l.date && wt_valid l.workout_type && at_least_one_set l.exercises &&
    l.exercises.all valid_exercise

/-! ### The Drive folder and the manifest -/

/-- One entry of the `index.json` manifest.  Entries written by `save_log`
carry every field; entries rebuilt from filenames only carry `date`/`file`,
so the remaining fields are optional, mirroring `dict.get`. -/
structure Entry where
  date : String
  file : String
  hash : Option String
  created_at : Option String
  schema_version : Option Int
  session_id : Option String
  workout_type : Option String
deriving DecidableEq

structure Manifest where
  schema_version : Int
  entries : List Entry
deriving DecidableEq

/-- Content of one JSON file in the folder: a per-date log document or the
manifest. -/
inductive Content where
  | doc (l : WorkoutLog)
  | man (m : Manifest)
deriving DecidableEq

/-- The Drive folder: JSON files as (name, content) pairs, in creation
order. -/
abbrev Folder := List (String × Content)

/-- `_find_file_by_name_in_folder`: the first file carrying the name
(`files[0] if files else None`). -/
def find_file_by_name (name : String) : Folder → Option Content
  | [] => none
  | (n, c) :: rest => if n == name then some c else find_file_by_name name rest

/-- `_update_json_file` on the file previously located by name: replace the
content of the first file with that name. -/
def update_file (name : String) (c : Content) : Folder → Folder
  | [] => []
  | (n, c0) :: rest =>
    if n == name then (n, c) :: rest else (n, c0) :: update_file name c rest

/-- `_create_json_file`: a new file appears in the folder. -/
def create_file (name : String) (c : Content) (f : Folder) : Folder :=
  f ++ [(name, c)]

/-- Reading a JSON file as a manifest: `.get("entries", [])` yields the
entries when the file is the manifest and `[]` on a log document;
`schema_version` mirrors the corresponding key. -/
def manifest_of : Content → Manifest
  | .man m => m
  | .doc l => ⟨l.schema_version, []⟩

def contentWt : Content → Option String
  | .doc l => l.workout_type
  | .man _ => none

def contentExercises : Content → List Exercise
  | .doc l => l.exercises
  | .man _ => []

/-! ### Python string comparison and sorting by date

Python compares strings lexicographically by code point; `sorted(...)`
orders by the induced total order.  `strLtL` is that comparison on
character lists. -/

def strLtL : List Char → List Char → Bool
  | _, [] => false
  | [], _ :: _ => true
  | a :: as, b :: bs => if a < b then true else if b < a then false else strLtL as bs

/-- Python `a < b` on strings. -/
def pyStrLt (a b : String) : Bool := strLtL a.data b.data

/-- Python `a <= b` on strings (equivalently, not `b < a`). -/
def pyStrLe (a b : String) : Bool := !(strLtL b.data a.data)

theorem char_eq_of_not_lt {a b : Char} (h1 : ¬ a < b) (h2 : ¬ b < a) : a = b :=
  le_antisymm (le_of_not_lt h2) (le_of_not_lt h1)

theorem strLtL_asymm : ∀ as bs, strLtL as bs = true → strLtL bs as = false := by
  intro as
  induction as with
  | nil => intro bs h; cases bs <;> simp [strLtL] at h ⊢
  | cons a as ih =>
    intro bs h
    cases bs with
    | nil => simp [strLtL] at h
    | cons b bs =>
      simp only [strLtL] at h ⊢
      by_cases hab : a < b
      · have hba : ¬ b < a := lt_asymm hab
        simp [hab, hba]
      · by_cases hba : b < a
        · simp [hab, hba] at h
        · simp [hab, hba] at h ⊢
          exact ih bs h

theorem strLtL_eq_of_not : ∀ as bs, strLtL as bs = false → strLtL bs as = false → as = bs := by
  intro as
  induction as with
  | nil => intro bs h _; cases bs <;> simp [strLtL] at h ⊢
  | cons a as ih =>
    intro bs h h'
    cases bs with
    | nil => simp [strLtL] at h'
    | cons b bs =>
      simp only [strLtL] at h h'
      by_cases hab : a < b
      · simp [hab] at h
      · by_cases hba : b < a
        · simp [hba] at h'
        · have hb : a = b := char_eq_of_not_lt hab hba
          simp [hab, hba] at h h'
          exact hb ▸ congrArg (a :: ·) (ih bs h h')

theorem strLtL_trans : ∀ as bs cs, strLtL as bs = true → strLtL bs cs = true →
    strLtL as cs = true := by
  intro as
  induction as with
  | nil =>
    intro bs cs h h'
    cases bs with
    | nil => simp [strLtL] at h
    | cons b bs => cases cs with
      | nil => simp [strLtL] at h'
      | cons c cs => simp [strLtL]
  | cons a as ih =>
    intro bs cs h h'
    cases bs with
    | nil => simp [strLtL] at h
    | cons b bs =>
      cases cs with
      | nil => simp [strLtL] at h'
      | cons c cs =>
        simp only [strLtL] at h h' ⊢
        by_cases hab : a < b
        · by_cases hbc : b < c
          · simp [lt_trans hab hbc]
          · by_cases hcb : c < b
            · simp [hbc, hcb] at h'
            · have : b = c := char_eq_of_not_lt hbc hcb
              subst this
              simp [hab]
        · by_cases hba : b < a
          · simp [hab, hba] at h
          · have : a = b := char_eq_of_not_lt hab hba
            subst this
            by_cases hac : a < c
            · simp [hac]
            · by_cases hca : c < a
              · simp [hac, hca] at h'
              · have : a = c := char_eq_of_not_lt hac hca
                subst this
                simp [lt_irrefl] at h h' ⊢
                exact ih bs cs h h'

def entryLe (a b : Entry) : Prop := pyStrLe a.date b.date = true

def entryLt (a b : Entry) : Prop := pyStrLt a.date b.date = true

instance : DecidableRel entryLe := fun _ _ => inferInstanceAs (Decidable (_ = true))

instance : DecidableRel entryLt := fun _ _ => inferInstanceAs (Decidable (_ = true))

instance : IsTotal Entry entryLe := by
  constructor
  intro a b
  by_cases h : strLtL b.date.data a.date.data = true
  · right
    simp [entryLe, pyStrLe, strLtL_asymm _ _ h]
  · left
    simp [entryLe, pyStrLe]
    simpa using h

instance : IsTrans Entry entryLe := by
  constructor
  intro a b c hab hbc
  simp only [entryLe, pyStrLe, Bool.not_eq_true'] at hab hbc ⊢
  by_cases hbc2 : strLtL b.date.data c.date.data = true
  · by_cases hca : strLtL c.date.data a.date.data = true
    · have hba := strLtL_trans _ _ _ hbc2 hca
      simp [hba] at hab
    · simpa using hca
  · have hbceq : b.date.data = c.date.data :=
      strLtL_eq_of_not _ _ (by simpa using hbc2) hbc
    rw [← hbceq]
    exact hab

/-- Dates equal as strings when neither compares less. -/
theorem pyStr_eq_of_not_lt {a b : String} (h : pyStrLt a b = false)
    (h' : pyStrLt b a = false) : a = b := by
  have hd : a.data = b.data := strLtL_eq_of_not _ _ h h'
  exact congrArg String.mk hd

theorem entryLt_of_le_of_ne {a b : Entry} (h : entryLe a b) (hne : a.date ≠ b.date) :
    entryLt a b := by
  simp only [entryLe, pyStrLe, Bool.not_eq_true', Bool.not_eq_false] at h
  simp only [entryLt, pyStrLt]
  by_cases hab : strLtL a.date.data b.date.data = true
  · exact hab
  · exact absurd (pyStr_eq_of_not_lt (by simpa using hab) h) hne

def sortByDate (es : List Entry) : List Entry := List.insertionSort entryLe es

/-- `name.endswith(".json")`. -/
def hasJsonSuffix (n : String) : Bool := decide (n.data.reverse.take 5 = ['n', 'o', 's', 'j', '.'])

/-- `name[:-5]`, dropping the `.json` suffix. -/
def dropDotJson (n : String) : String := ⟨n.data.take (n.data.length - 5)⟩

/-- A manifest entry rebuilt from a date-named file: `{"date": name[:-5], "file": name}`. -/
def rebuild_entry (n : String) : Entry := ⟨dropDotJson n, n, none, none, none, none, none⟩

/-- `_load_manifest_entries`: read and sort the manifest when `index.json`
exists, else rebuild entries from the `.json` files in the folder. -/
def load_manifest_entries (f : Folder) : List Entry :=
  match find_file_by_name "index.json" f with
  | some c => sortByDate (manifest_of c).entries
  | none =>
    sortByDate (((f.map Prod.fst).filter
      (fun n => !(n == "index.json") && hasJsonSuffix n)).map rebuild_entry)

/-! ### `_upsert_manifest`: the insertion-ordered `by_date` dict -/

def dict_insert (k : String) (v : Entry) : List (String × Entry) → List (String × Entry)
  | [] => [(k, v)]
  | (k0, v0) :: rest =>
    if k0 == k then (k0, v) :: rest else (k0, v0) :: dict_insert k v rest

/-- `{e["date"]: e for e in entries}`. -/
def dict_of_entries (es : List Entry) : List (String × Entry) :=
  es.foldl (fun d e => dict_insert e.date e d) []

def dict_values (d : List (String × Entry)) : List Entry := d.map Prod.snd

/-- The entry list `_upsert_manifest` writes back:
`sorted(by_date.values(), key=lambda e: e["date"])` after
`by_date[entry["date"]] = entry`. -/
def upserted_entries (entry : Entry) (es : List Entry) : List Entry :=
  sortByDate (dict_values (dict_insert entry.date entry (dict_of_entries es)))

/-- `_upsert_manifest`. -/
def upsert_manifest (entry : Entry) (f : Folder) : Folder :=
  match find_file_by_name "index.json" f with
  | some c =>
    update_file "index.json"
      (.man ⟨(manifest_of c).schema_version, upserted_entries entry (manifest_of c).entries⟩) f
  | none =>
    create_file "index.json" (.man ⟨2, upserted_entries entry []⟩) f

/-! ### HTTP handlers (after the bearer-token check) -/

deriving instance DecidableEq for Except

structure HTTPException where
  status_code : Nat
  detail : String
deriving DecidableEq

/-- The body of the `log` key of `GET /logs/latest`'s response: the stored
document, or the literal `{}` when the manifest names a missing file. -/
inductive RespLog where
  | data (c : Content)
  | emptyObj
deriving DecidableEq

structure LatestResp where
  meta : Entry
  log : RespLog
deriving DecidableEq

structure WorkoutResp where
  meta : Entry
  log : Content
deriving DecidableEq

structure MuscleResp where
  meta : Entry
  log : Content
  matched_exercise : String
deriving DecidableEq

/-- `if before: entries = [e for e in entries if e["date"] < before]`
(`before` is falsy when absent or the empty string). -/
def applyBefore (before : Option String) (es : List Entry) : List Entry :=
  match before with
  | none => es
  | some b => if b = "" then es else es.filter (fun e => pyStrLt e.date b)

/-- `POST /logs` (`save_log`): upsert the per-date document, then the
manifest entry.  `now` is the `created_at` timestamp and `sha` the payload
hash; the HTTP response itself is not modelled. -/
def save_log (log : WorkoutLog) (now sha : String) (f : Folder) : Folder :=
  let filename := log.date ++ ".json"
  let f1 :=
    match find_file_by_name filename f with
    | some _ => update_file filename (.doc log) f
    | none => create_file filename (.doc log) f
  upsert_manifest
    ⟨log.date, filename, some sha, some now, some log.schema_version,
     some log.session_id, log.workout_type⟩ f1

/-- `GET /logs/by-date/{date}` (`fetch_log`), including the framework's
path-pattern check. -/
def fetch_log (f : Folder) (date : String) : Except HTTPException Content :=
  if datePattern date then
    match find_file_by_name (date ++ ".json") f with
    | some c => .ok c
    | none => .error ⟨404, "No log for " ++ date⟩
  else .error ⟨422, "path parameter does not match pattern"⟩

/-- `GET /logs/latest` (`latest_log`). -/
def latest_log (f : Folder) (before : Option String) : Except HTTPException LatestResp :=
  let entries := applyBefore before (load_manifest_entries f)
  match entries.getLast? with
  | none => .error ⟨404, "No logs found"⟩
  | some latest =>
    match find_file_by_name latest.file f with
    | some c => .ok ⟨latest, .data c⟩
    | none => .ok ⟨latest, .emptyObj⟩

/-- `(x or "").strip().lower()` applied to an optional workout type. -/
def normWtOpt (o : Option String) : String := stripLowerS (o.getD "")

/-- First `for e in reversed(entries)` loop of `latest_for_workout`: only
manifest entries whose `workout_type` matches; a missing file is skipped; a
found document is returned when its own type matches, or when any of its
exercises lists target muscles. -/
def lfw_scan1 (f : Folder) (t : String) : List Entry → Option WorkoutResp
  | [] => none
  | e :: rest =>
    if normWtOpt e.workout_type == t then
      match find_file_by_name e.file f with
      | none => lfw_scan1 f t rest
      | some c =>
        if normWtOpt (contentWt c) == t then some ⟨e, c⟩
        else if (contentExercises c).any (fun ex => !(ex.target_muscles.getD []).isEmpty) then
          some ⟨e, c⟩
        else lfw_scan1 f t rest
    else lfw_scan1 f t rest

/-- Second loop of `latest_for_workout`: every entry, return the first
document whose own `workout_type` matches. -/
def lfw_scan2 (f : Folder) (t : String) : List Entry → Option WorkoutResp
  | [] => none
  | e :: rest =>
    match find_file_by_name e.file f with
    | none => lfw_scan2 f t rest
    | some c =>
      if normWtOpt (contentWt c) == t then some ⟨e, c⟩ else lfw_scan2 f t rest

/-- `GET /logs/latest_for_workout` (`latest_for_workout`). -/
def latest_for_workout (f : Folder) (type0 : String) (before : Option String) :
    Except HTTPException WorkoutResp :=
  let t := stripLowerS type0
  let entries := applyBefore before (load_manifest_entries f)
  match lfw_scan1 f t entries.reverse with
  | some r => .ok r
  | none =>
    match lfw_scan2 f t entries.reverse with
    | some r => .ok r
    | none => .error ⟨404, "No logs found for workout_type '" ++ t ++ "'"⟩

/-- `needle in [m.strip().lower() for m in (ex.get("target_muscles") or [])]`. -/
def exercise_muscle_match (needle : String) (ex : Exercise) : Bool :=
  ((ex.target_muscles.getD []).map stripLowerS).contains needle

def lfm_scan (f : Folder) (needle : String) : List Entry → Option MuscleResp
  | [] => none
  | e :: rest =>
    match find_file_by_name e.file f with
    | none => lfm_scan f needle rest
    | some c =>
      match (contentExercises c).find? (exercise_muscle_match needle) with
      | some ex => some ⟨e, c, ex.name⟩
      | none => lfm_scan f needle rest

/-- `GET /logs/latest_for_muscle` (`latest_for_muscle`). -/
def latest_for_muscle (f : Folder) (muscle : String) (before : Option String) :
    Except HTTPException MuscleResp :=
  let needle := stripLowerS muscle
  let entries := applyBefore before (load_manifest_entries f)
  match lfm_scan f needle entries.reverse with
  | some r => .ok r
  | none => .error ⟨404, "No logs found containing muscle '" ++ muscle ++ "'"⟩

/-! ### Lemmas about the folder primitives -/

theorem find_update_self {n : String} (c : Content) {f : Folder}
    (h : (find_file_by_name n f).isSome) :
    find_file_by_name n (update_file n c f) = some c := by
  induction f with
  | nil => simp [find_file_by_name] at h
  | cons p rest ih =>
    obtain ⟨pn, pc⟩ := p
    by_cases hp : pn = n
    · simp [find_file_by_name, update_file, hp]
    · simp only [find_file_by_name, beq_iff_eq, hp, if_false] at h
      simp only [update_file, beq_iff_eq, hp, if_false, find_file_by_name]
      exact ih h

theorem find_update_other {n m : String} (c : Content) (f : Folder) (h : n ≠ m) :
    find_file_by_name n (update_file m c f) = find_file_by_name n f := by
  induction f with
  | nil => rfl
  | cons p rest ih =>
    obtain ⟨pn, pc⟩ := p
    by_cases hp : pn = m
    · subst hp
      simp [update_file, find_file_by_name, Ne.symm h]
    · simp only [update_file, beq_iff_eq, hp, if_false, find_file_by_name]
      by_cases hn : pn = n
      · simp [hn]
      · simp only [beq_iff_eq, hn, if_false]
        exact ih

theorem find_create_self {n : String} (c : Content) {f : Folder}
    (h : find_file_by_name n f = none) :
    find_file_by_name n (create_file n c f) = some c := by
  induction f with
  | nil => simp [find_file_by_name, create_file]
  | cons p rest ih =>
    obtain ⟨pn, pc⟩ := p
    by_cases hp : pn = n
    · simp [find_file_by_name, hp] at h
    · simp only [find_file_by_name, beq_iff_eq, hp, if_false] at h
      simp only [create_file, List.cons_append, find_file_by_name, beq_iff_eq, hp, if_false]
      exact ih h

theorem find_create_other {n m : String} (c : Content) (f : Folder) (h : n ≠ m) :
    find_file_by_name n (create_file m c f) = find_file_by_name n f := by
  induction f with
  | nil => simp [find_file_by_name, create_file, beq_iff_eq, Ne.symm h]
  | cons p rest ih =>
    obtain ⟨pn, pc⟩ := p
    by_cases hp : pn = n
    · simp [find_file_by_name, create_file, hp]
    · simp only [create_file, List.cons_append, find_file_by_name, beq_iff_eq, hp,
        if_false] at ih ⊢
      exact ih

/-! ### Sortedness -/

theorem sortByDate_perm (es : List Entry) : List.Perm (sortByDate es) es :=
  List.perm_insertionSort entryLe es

theorem sortByDate_sorted (es : List Entry) : (sortByDate es).Pairwise entryLe :=
  List.sorted_insertionSort entryLe es

theorem entryLe_refl (e : Entry) : entryLe e e := by
  simp only [entryLe, pyStrLe, Bool.not_eq_true']
  cases h : strLtL e.date.data e.date.data
  · rfl
  · have h2 := strLtL_asymm _ _ h
    rw [h] at h2
    exact h2

theorem pairwise_lt_of_le_nodup {es : List Entry} (hs : es.Pairwise entryLe)
    (hn : (es.map Entry.date).Nodup) : es.Pairwise entryLt := by
  have h2 : es.Pairwise (fun a b => a.date ≠ b.date) := List.pairwise_map.mp hn
  exact (hs.and h2).imp (fun h => entryLt_of_le_of_ne h.1 h.2)

theorem pairwise_le_date_getLast {es : List Entry} {e : Entry}
    (hs : es.Pairwise entryLe) (hl : es.getLast? = some e) :
    ∀ x ∈ es, entryLe x e := by
  induction es with
  | nil => simp at hl
  | cons a t ih =>
    cases t with
    | nil =>
      simp only [List.getLast?_singleton, Option.some.injEq] at hl
      subst hl
      intro x hx
      simp only [List.mem_singleton] at hx
      subst hx
      exact entryLe_refl _
    | cons b t2 =>
      rw [List.getLast?_cons_cons] at hl
      have hs2 := List.pairwise_cons.mp hs
      intro x hx
      rcases List.mem_cons.mp hx with hxa | hxt
      · subst hxa
        exact hs2.1 e (List.mem_of_getLast?_eq_some hl)
      · exact ih hs2.2 hl x hxt

theorem load_manifest_entries_sorted (f : Folder) :
    (load_manifest_entries f).Pairwise entryLe := by
  unfold load_manifest_entries
  cases find_file_by_name "index.json" f <;> exact sortByDate_sorted _

/-! ### The `by_date` dict -/

def dict_keys (d : List (String × Entry)) : List String := d.map Prod.fst

theorem dict_insert_keys (k : String) (v : Entry) (d : List (String × Entry)) :
    dict_keys (dict_insert k v d) =
      if k ∈ dict_keys d then dict_keys d else dict_keys d ++ [k] := by
  induction d with
  | nil => simp [dict_insert, dict_keys]
  | cons p rest ih =>
    by_cases hp : p.1 = k
    · simp [dict_insert, dict_keys, beq_iff_eq, hp]
    · simp only [dict_insert, beq_iff_eq, hp, if_false]
      have hne : ¬ k = p.1 := fun h => hp h.symm
      simp only [dict_keys, List.map_cons] at ih ⊢
      rw [ih]
      by_cases hk : k ∈ List.map Prod.fst rest
      · simp [List.mem_cons, hk, hne]
      · simp [List.mem_cons, hk, hne]

theorem dict_insert_keys_nodup {k : String} {v : Entry} {d : List (String × Entry)}
    (hk : (dict_keys d).Nodup) : (dict_keys (dict_insert k v d)).Nodup := by
  rw [dict_insert_keys]
  by_cases h : k ∈ dict_keys d
  · simpa [h] using hk
  · simp only [h, if_false]
    simp [List.nodup_append, hk, h]

def DictCoherent (d : List (String × Entry)) : Prop :=
  ∀ p ∈ d, (p : String × Entry).2.date = p.1

theorem dict_insert_coherent {k : String} {v : Entry} {d : List (String × Entry)}
    (hc : DictCoherent d) (hv : v.date = k) : DictCoherent (dict_insert k v d) := by
  induction d with
  | nil =>
    intro p hp
    simp only [dict_insert, List.mem_singleton] at hp
    subst hp
    exact hv
  | cons q rest ih =>
    intro p hp
    by_cases hq : q.1 = k
    · simp only [dict_insert, beq_iff_eq, hq, if_true] at hp
      rcases List.mem_cons.mp hp with h1 | h2
      · subst h1
        simpa [hq] using hv
      · exact hc p (List.mem_cons_of_mem q h2)
    · simp only [dict_insert, beq_iff_eq, hq, if_false] at hp
      rcases List.mem_cons.mp hp with h1 | h2
      · subst h1
        exact hc _ (List.mem_cons_self _ _)
      · exact ih (fun r hr => hc r (List.mem_cons_of_mem q hr)) p h2

theorem dict_fold_coherent (es : List Entry) :
    ∀ acc, DictCoherent acc →
      DictCoherent (es.foldl (fun d e => dict_insert e.date e d) acc) := by
  induction es with
  | nil => intro acc hc; simpa using hc
  | cons e rest ih =>
    intro acc hc
    simp only [List.foldl_cons]
    exact ih _ (dict_insert_coherent hc rfl)

theorem dict_of_entries_coherent (es : List Entry) : DictCoherent (dict_of_entries es) :=
  dict_fold_coherent es [] (by intro p hp; simp at hp)

theorem dict_fold_keys_nodup (es : List Entry) :
    ∀ acc, (dict_keys acc).Nodup →
      (dict_keys (es.foldl (fun d e => dict_insert e.date e d) acc)).Nodup := by
  induction es with
  | nil => intro acc hc; simpa using hc
  | cons e rest ih =>
    intro acc hc
    simp only [List.foldl_cons]
    exact ih _ (dict_insert_keys_nodup hc)

theorem dict_of_entries_keys_nodup (es : List Entry) :
    (dict_keys (dict_of_entries es)).Nodup :=
  dict_fold_keys_nodup es [] (by simp [dict_keys])

theorem dict_values_dates {d : List (String × Entry)} (hc : DictCoherent d) :
    (dict_values d).map Entry.date = dict_keys d := by
  induction d with
  | nil => rfl
  | cons p rest ih =>
    simp only [dict_values, dict_keys, List.map_cons, List.map_map] at ih ⊢
    rw [hc p (List.mem_cons_self p rest)]
    exact congrArg (p.1 :: ·) (ih (fun r hr => hc r (List.mem_cons_of_mem p hr)))

theorem mem_dict_values_insert_self (k : String) (v : Entry) (d : List (String × Entry)) :
    v ∈ dict_values (dict_insert k v d) := by
  induction d with
  | nil => simp [dict_insert, dict_values]
  | cons p rest ih =>
    by_cases hp : p.1 = k
    · simp [dict_insert, dict_values, beq_iff_eq, hp]
    · simp only [dict_insert, beq_iff_eq, hp, if_false, dict_values, List.map_cons]
      exact List.mem_cons_of_mem _ ih

theorem mem_dict_insert_of_mem {p : String × Entry} {d : List (String × Entry)}
    {k : String} (v : Entry) (h : p ∈ d) (hne : p.1 ≠ k) : p ∈ dict_insert k v d := by
  induction d with
  | nil => simp at h
  | cons q rest ih =>
    by_cases hq : q.1 = k
    · simp only [dict_insert, beq_iff_eq, hq, if_true]
      rcases List.mem_cons.mp h with h1 | h2
      · subst h1; exact absurd hq hne
      · exact List.mem_cons_of_mem _ h2
    · simp only [dict_insert, beq_iff_eq, hq, if_false]
      rcases List.mem_cons.mp h with h1 | h2
      · subst h1; exact List.mem_cons_self _ _
      · exact List.mem_cons_of_mem _ (ih h2)

theorem dict_insert_fresh {k : String} {d : List (String × Entry)} (v : Entry)
    (h : k ∉ dict_keys d) : dict_insert k v d = d ++ [(k, v)] := by
  induction d with
  | nil => rfl
  | cons p rest ih =>
    simp only [dict_keys, List.map_cons, List.mem_cons] at h
    push_neg at h
    have hp : ¬ p.1 = k := fun he => h.1 he.symm
    simp only [dict_insert, beq_iff_eq, hp, if_false, List.cons_append]
    exact congrArg (p :: ·) (ih h.2)

theorem dict_fold_fresh : ∀ (es : List Entry) (acc : List (String × Entry)),
    (es.map Entry.date).Nodup → (∀ e ∈ es, e.date ∉ dict_keys acc) →
    es.foldl (fun d e => dict_insert e.date e d) acc =
      acc ++ es.map (fun e => (e.date, e)) := by
  intro es
  induction es with
  | nil => intro acc _ _; simp
  | cons e rest ih =>
    intro acc hn hf
    simp only [List.map_cons, List.nodup_cons] at hn
    simp only [List.foldl_cons]
    rw [dict_insert_fresh e (hf e (List.mem_cons_self e rest))]
    rw [ih (acc ++ [(e.date, e)]) hn.2 ?fresh]
    · simp
    case fresh =>
      intro x hx
      simp only [dict_keys, List.map_append, List.mem_append]
      push_neg
      constructor
      · exact hf x (List.mem_cons_of_mem e hx)
      · simp only [List.map_cons, List.map_nil, List.mem_singleton]
        intro heq
        exact hn.1 (heq ▸ List.mem_map_of_mem Entry.date hx)

theorem dict_of_entries_eq_map {es : List Entry} (hn : (es.map Entry.date).Nodup) :
    dict_of_entries es = es.map (fun e => (e.date, e)) := by
  unfold dict_of_entries
  rw [dict_fold_fresh es [] hn (by simp [dict_keys])]
  simp

/-! ### `upserted_entries` -/

theorem upserted_entries_dates_nodup (u : Entry) (es : List Entry) :
    ((dict_values (dict_insert u.date u (dict_of_entries es))).map Entry.date).Nodup := by
  rw [dict_values_dates (dict_insert_coherent (dict_of_entries_coherent es) rfl)]
  exact dict_insert_keys_nodup (dict_of_entries_keys_nodup es)

theorem upserted_entries_sorted (u : Entry) (es : List Entry) :
    (upserted_entries u es).Pairwise entryLt := by
  apply pairwise_lt_of_le_nodup (sortByDate_sorted _)
  have hperm := (sortByDate_perm
    (dict_values (dict_insert u.date u (dict_of_entries es)))).map Entry.date
  exact hperm.nodup_iff.mpr (upserted_entries_dates_nodup u es)

theorem mem_upserted_self (u : Entry) (es : List Entry) : u ∈ upserted_entries u es :=
  (sortByDate_perm _).mem_iff.mpr (mem_dict_values_insert_self u.date u (dict_of_entries es))

theorem mem_upserted_of_mem {u v : Entry} {es : List Entry}
    (hes : es.Pairwise entryLt) (hv : v ∈ es) (hne : v.date ≠ u.date) :
    v ∈ upserted_entries u es := by
  have hn : (es.map Entry.date).Nodup := by
    apply List.pairwise_map.mpr
    exact hes.imp (fun {a b} h => by
      intro heq
      simp only [entryLt, pyStrLt, heq] at h
      cases hlt : strLtL b.date.data b.date.data
      · rw [hlt] at h; exact Bool.noConfusion h
      · exact absurd hlt (by simp [strLtL_asymm _ _ hlt]))
  have hpair : (v.date, v) ∈ dict_of_entries es := by
    rw [dict_of_entries_eq_map hn]
    exact List.mem_map_of_mem _ hv
  have hmem := mem_dict_insert_of_mem u hpair hne
  exact (sortByDate_perm _).mem_iff.mpr (List.mem_map_of_mem Prod.snd hmem)


/-! ### Manifest evolution under upserts -/

/-- A sequence of `_upsert_manifest` calls applied to a folder. -/
def apply_upserts (f : Folder) (ups : List Entry) : Folder :=
  ups.foldl (fun acc u => upsert_manifest u acc) f

/-- The entry list currently recorded in `index.json` (empty when absent). -/
def manifest_entries (f : Folder) : List Entry :=
  match find_file_by_name "index.json" f with
  | some c => (manifest_of c).entries
  | none => []

theorem manifest_entries_upsert (u : Entry) (f : Folder) :
    manifest_entries (upsert_manifest u f) = upserted_entries u (manifest_entries f) := by
  cases h : find_file_by_name "index.json" f with
  | none =>
    simp only [upsert_manifest, h, manifest_entries]
    rw [find_create_self _ h]
    rfl
  | some c =>
    simp only [upsert_manifest, h, manifest_entries]
    rw [find_update_self _ (by simp [h])]
    rfl

theorem manifest_entries_apply_upserts (ups : List Entry) :
    ∀ f, manifest_entries (apply_upserts f ups) =
      ups.foldl (fun es u => upserted_entries u es) (manifest_entries f) := by
  induction ups with
  | nil => intro f; rfl
  | cons u rest ih =>
    intro f
    simp only [apply_upserts, List.foldl_cons] at ih ⊢
    rw [ih (upsert_manifest u f), manifest_entries_upsert]

/-- The heart of the manifest invariant: after at least one upsert the entry
list is strictly sorted by date, and for every date the surviving entry is
the most recently upserted one. -/
theorem ents_after_spec (ups : List Entry) (es0 : List Entry) :
    ups ≠ [] →
    (ups.foldl (fun es u => upserted_entries u es) es0).Pairwise entryLt ∧
    ∀ u : Entry, (ups.filter (fun x => x.date == u.date)).getLast? = some u →
      u ∈ ups.foldl (fun es u => upserted_entries u es) es0 := by
  induction ups using List.reverseRecOn with
  | nil => intro h; exact absurd rfl h
  | append_singleton us u0 ih =>
    intro _
    rw [List.foldl_append]
    simp only [List.foldl_cons, List.foldl_nil]
    refine ⟨upserted_entries_sorted u0 _, ?_⟩
    intro u hu
    rw [List.filter_append] at hu
    by_cases hd : u0.date = u.date
    · have hone : List.filter (fun x => x.date == u.date) [u0] = [u0] := by simp [hd]
      rw [hone, List.getLast?_append] at hu
      simp only [List.getLast?_singleton, Option.or_some] at hu
      obtain rfl := Option.some.inj hu
      exact mem_upserted_self _ _
    · have hzero : List.filter (fun x => x.date == u.date) [u0] = [] := by simp [hd]
      rw [hzero, List.append_nil] at hu
      cases us with
      | nil => simp at hu
      | cons a us2 =>
        obtain ⟨hp, hmem⟩ := ih (by simp)
        exact mem_upserted_of_mem hp (hmem u hu) (fun he => hd he.symm)

/-! ### Claim C2 -/

/-- C2: for every sequence of manifest upserts (any dates, repeats allowed),
the manifest entry list afterwards is strictly sorted by date ascending --
so it is sorted and holds at most one entry per date -- and for each date
the surviving entry is the most recently upserted entry with that date
(a repeated date replaces the earlier entry). -/
theorem c2_manifest_sorted_unique (f : Folder) (ups : List Entry) (h : ups ≠ []) :
    (manifest_entries (apply_upserts f ups)).Pairwise entryLt ∧
    ∀ u : Entry, (ups.filter (fun x => x.date == u.date)).getLast? = some u →
      u ∈ manifest_entries (apply_upserts f ups) := by
  rw [manifest_entries_apply_upserts]
  exact ents_after_spec ups (manifest_entries f) h

def c2wA : Entry := ⟨"2024-02-02", "2024-02-02.json", some "h1", some "t1", some 2, some "s1", some "push"⟩

def c2wB : Entry := ⟨"2024-02-01", "2024-02-01.json", some "h2", some "t2", some 2, some "s2", none⟩

def c2wC : Entry := ⟨"2024-02-02", "2024-02-02.json", some "h3", some "t3", some 2, some "s3", some "legs"⟩

/-- Witness for C2 at a concrete upsert sequence with a repeated date. -/
theorem c2_manifest_sorted_unique_witness :
    (manifest_entries (apply_upserts [] [c2wA, c2wB, c2wC])).Pairwise entryLt ∧
    c2wC ∈ manifest_entries (apply_upserts [] [c2wA, c2wB, c2wC]) :=
  ⟨(c2_manifest_sorted_unique [] [c2wA, c2wB, c2wC] (by decide)).1,
   (c2_manifest_sorted_unique [] [c2wA, c2wB, c2wC] (by decide)).2 c2wC (by decide)⟩

/-! ### Claim C3 -/

/-- C3: with a supplied cutoff date `before`, `GET /logs/latest` considers
exactly the manifest entries whose date is strictly less than the cutoff:
when it answers 200 the returned meta entry is one of those and carries the
greatest remaining date, and it answers 404 (with detail "No logs found")
precisely when no entry remains. -/
theorem c3_latest_cutoff (f : Folder) (b : String) (hb : b ≠ "") :
    match latest_log f (some b) with
    | .error err => err = ⟨404, "No logs found"⟩ ∧
        (load_manifest_entries f).filter (fun e => pyStrLt e.date b) = []
    | .ok r => r.meta ∈ (load_manifest_entries f).filter (fun e => pyStrLt e.date b) ∧
        ∀ e ∈ (load_manifest_entries f).filter (fun e => pyStrLt e.date b),
          pyStrLe e.date r.meta.date = true := by
  have hsorted : ((load_manifest_entries f).filter
      (fun e => pyStrLt e.date b)).Pairwise entryLe :=
    (load_manifest_entries_sorted f).filter _
  simp only [latest_log, applyBefore, if_neg hb]
  cases hl : ((load_manifest_entries f).filter (fun e => pyStrLt e.date b)).getLast? with
  | none =>
    exact ⟨rfl, List.getLast?_eq_none_iff.mp hl⟩
  | some e =>
    have hmem := List.mem_of_getLast?_eq_some hl
    have hmax := pairwise_le_date_getLast hsorted hl
    dsimp only
    cases find_file_by_name e.file f with
    | none => exact ⟨hmem, fun x hx => hmax x hx⟩
    | some c => exact ⟨hmem, fun x hx => hmax x hx⟩

def c3f : Folder :=
  [("index.json", Content.man ⟨2,
    [⟨"2024-03-01", "2024-03-01.json", none, none, none, none, none⟩,
     ⟨"2024-03-05", "2024-03-05.json", none, none, none, none, none⟩]⟩)]

/-- Witness for C3 at a concrete folder and cutoff. -/
theorem c3_latest_cutoff_witness :
    match latest_log c3f (some "2024-03-05") with
    | .error err => err = ⟨404, "No logs found"⟩ ∧
        (load_manifest_entries c3f).filter (fun e => pyStrLt e.date "2024-03-05") = []
    | .ok r => r.meta ∈ (load_manifest_entries c3f).filter
          (fun e => pyStrLt e.date "2024-03-05") ∧
        ∀ e ∈ (load_manifest_entries c3f).filter (fun e => pyStrLt e.date "2024-03-05"),
          pyStrLe e.date r.meta.date = true :=
  c3_latest_cutoff c3f "2024-03-05" (by decide)

/-! ### Claim C7 -/

/-- C7: when no `index.json` exists, loading the manifest rebuilds it from
the folder listing: the result is sorted by date ascending, and its entries
are exactly one `{date: name[:-5], file: name}` record for each `.json`
file other than `index.json`. -/
theorem c7_rebuild (f : Folder) (h : find_file_by_name "index.json" f = none) :
    (load_manifest_entries f).Pairwise entryLe ∧
    ∀ e : Entry, e ∈ load_manifest_entries f ↔
      ∃ n, n ∈ f.map Prod.fst ∧ n ≠ "index.json" ∧ hasJsonSuffix n = true ∧
        e = rebuild_entry n := by
  refine ⟨load_manifest_entries_sorted f, ?_⟩
  intro e
  unfold load_manifest_entries
  rw [h]
  rw [(sortByDate_perm _).mem_iff]
  rw [List.mem_map]
  constructor
  · rintro ⟨n, hn, rfl⟩
    have hn2 := List.mem_filter.mp hn
    refine ⟨n, hn2.1, ?_, ?_, rfl⟩
    · have := hn2.2
      simp only [Bool.and_eq_true, Bool.not_eq_true', beq_eq_false_iff_ne, ne_eq] at this
      exact this.1
    · have := hn2.2
      simp only [Bool.and_eq_true] at this
      exact this.2
  · rintro ⟨n, hn, hni, hjs, rfl⟩
    refine ⟨n, List.mem_filter.mpr ⟨hn, ?_⟩, rfl⟩
    simp only [Bool.and_eq_true, Bool.not_eq_true', beq_eq_false_iff_ne, ne_eq]
    exact ⟨hni, hjs⟩

def c7f : Folder :=
  [("2024-04-02.json", Content.doc ⟨2, "2024-04-02", none, [], none, "s"⟩),
   ("2024-04-01.json", Content.doc ⟨2, "2024-04-01", none, [], none, "s"⟩)]

/-- Witness for C7 at a concrete folder without a manifest. -/
theorem c7_rebuild_witness :
    (load_manifest_entries c7f).Pairwise entryLe ∧
    (rebuild_entry "2024-04-01.json" ∈ load_manifest_entries c7f ↔
      ∃ n, n ∈ c7f.map Prod.fst ∧ n ≠ "index.json" ∧ hasJsonSuffix n = true ∧
        rebuild_entry "2024-04-01.json" = rebuild_entry n) :=
  ⟨(c7_rebuild c7f (by decide)).1, (c7_rebuild c7f (by decide)).2 (rebuild_entry "2024-04-01.json")⟩

/-! ### Claim C10 -/

/-- C10: when the latest qualifying manifest entry names a file absent from
the folder, `GET /logs/latest` answers 200 with that entry as meta and the
empty object as the log (no 404, no error). -/
theorem c10_missing_file_empty_log (f : Folder) (b : Option String) (e : Entry)
    (h1 : (applyBefore b (load_manifest_entries f)).getLast? = some e)
    (h2 : find_file_by_name e.file f = none) :
    latest_log f b = .ok ⟨e, .emptyObj⟩ := by
  simp only [latest_log, h1, h2]

def c10e : Entry := ⟨"2024-05-01", "2024-05-01.json", none, none, none, none, none⟩

def c10f : Folder := [("index.json", Content.man ⟨2, [c10e]⟩)]

/-- Witness for C10: the manifest names a file that does not exist. -/
theorem c10_missing_file_empty_log_witness :
    latest_log c10f none = .ok ⟨c10e, .emptyObj⟩ :=
  c10_missing_file_empty_log c10f none c10e (by decide) (by decide)


/-! ### Claim C1 -/

theorem find_upsert_other {n : String} (u : Entry) (f : Folder) (h : n ≠ "index.json") :
    find_file_by_name n (upsert_manifest u f) = find_file_by_name n f := by
  unfold upsert_manifest
  cases hm : find_file_by_name "index.json" f with
  | some c => exact find_update_other _ f h
  | none => exact find_create_other _ f h

theorem datePattern_ne_index {d : String} (h : datePattern d = true) :
    d ++ ".json" ≠ "index.json" := by
  intro he
  have hsplit : ("index.json" : String) = "index" ++ ".json" := by decide
  have he2 : d ++ ".json" = "index" ++ ".json" := he.trans hsplit
  have hdata := congrArg String.data he2
  simp only [String.data_append] at hdata
  have hd : d.data = ("index" : String).data := List.append_inj_left' hdata rfl
  have hds : d = "index" := congrArg String.mk hd
  rw [hds] at h
  exact absurd h (by decide)

/-- C1 (amended): for every valid `WorkoutLog` whose date also matches the
by-date path pattern `^\d{4}-\d{2}-\d{2}$`, saving it and then fetching by
its date (with no intervening save) returns exactly the saved document. -/
theorem c1_roundtrip_zero_padded (f : Folder) (log : WorkoutLog) (now sha : String)
    (hv : validLog log = true) (hp : datePattern log.date = true) :
    fetch_log (save_log log now sha f) log.date = .ok (.doc log) := by
  unfold fetch_log save_log
  rw [if_pos hp]
  rw [find_upsert_other _ _ (datePattern_ne_index hp)]
  cases hf : find_file_by_name (log.date ++ ".json") f with
  | some c =>
    simp only [hf]
    rw [find_update_self _ (by simp [hf])]
  | none =>
    simp only [hf]
    rw [find_create_self _ hf]

def c1log : WorkoutLog := ⟨2, "2024-01-06", some "push", [⟨"squat", [⟨5, 100⟩], none⟩], none, "sid-1"⟩

/-- Witness for C1's amended round trip at a concrete valid log. -/
theorem c1_roundtrip_zero_padded_witness :
    fetch_log (save_log c1log "t0" "h0" []) c1log.date = .ok (.doc c1log) :=
  c1_roundtrip_zero_padded [] c1log "t0" "h0" (by decide) (by decide)

def c1badlog : WorkoutLog := ⟨2, "2024-1-1", none, [⟨"squat", [⟨5, 100⟩], none⟩], none, "sid-2"⟩

/-- C1 as stated is false: `"2024-1-1"` passes every validator (strptime
accepts non-zero-padded months and days), yet fetching it back yields the
path-pattern client error, not the saved document. -/
theorem c1_roundtrip_counterexample :
    validLog c1badlog = true ∧
    fetch_log (save_log c1badlog "t0" "h0" []) c1badlog.date =
      .error ⟨422, "path parameter does not match pattern"⟩ := by decide

/-! ### Claim C5 -/

/-- C5: the date validator contradicts the claim (and the code's own error
message "date must be YYYY-MM-DD"): `"2024-1-1"` is not of the zero-padded
form, is rejected by the by-date path pattern, yet is accepted by the
strptime-based validator. -/
theorem c5_lax_date_validator :
    date_iso "2024-1-1" = true ∧ datePattern "2024-1-1" = false ∧
    date_iso "999-01-01" = false ∧ date_iso "2024-13-01" = false := by decide

/-! ### Claim C4 -/

theorem lfw_scan1_spec (f : Folder) (t : String) :
    ∀ (es : List Entry) (r : WorkoutResp), lfw_scan1 f t es = some r →
      normWtOpt r.meta.workout_type = t ∧
      (normWtOpt (contentWt r.log) = t ∨
        (contentExercises r.log).any (fun ex => !(ex.target_muscles.getD []).isEmpty) = true) := by
  intro es
  induction es with
  | nil => intro r h; simp [lfw_scan1] at h
  | cons e rest ih =>
    intro r h
    simp only [lfw_scan1] at h
    by_cases h1 : (normWtOpt e.workout_type == t) = true
    · rw [if_pos h1] at h
      cases hf : find_file_by_name e.file f with
      | none => simp only [hf] at h; exact ih r h
      | some c =>
        simp only [hf] at h
        by_cases h2 : (normWtOpt (contentWt c) == t) = true
        · rw [if_pos h2] at h
          obtain rfl := Option.some.inj h
          exact ⟨beq_iff_eq.mp h1, Or.inl (beq_iff_eq.mp h2)⟩
        · rw [if_neg h2] at h
          by_cases h3 : (contentExercises c).any
              (fun ex => !(ex.target_muscles.getD []).isEmpty) = true
          · rw [if_pos h3] at h
            obtain rfl := Option.some.inj h
            exact ⟨beq_iff_eq.mp h1, Or.inr h3⟩
          · rw [if_neg h3] at h
            exact ih r h
    · rw [if_neg h1] at h
      exact ih r h

theorem lfw_scan2_spec (f : Folder) (t : String) :
    ∀ (es : List Entry) (r : WorkoutResp), lfw_scan2 f t es = some r →
      normWtOpt (contentWt r.log) = t := by
  intro es
  induction es with
  | nil => intro r h; simp [lfw_scan2] at h
  | cons e rest ih =>
    intro r h
    simp only [lfw_scan2] at h
    cases hf : find_file_by_name e.file f with
    | none => simp only [hf] at h; exact ih r h
    | some c =>
      simp only [hf] at h
      by_cases h2 : (normWtOpt (contentWt c) == t) = true
      · rw [if_pos h2] at h
        obtain rfl := Option.some.inj h
        exact beq_iff_eq.mp h2
      · rw [if_neg h2] at h
        exact ih r h

/-- Qualification of one manifest entry for the primary scan of
`latest_for_workout`: its manifest `workout_type` matches the type, its
backing document exists, and the document strictly matches the type or
lists target muscles for some exercise. -/
def lfw_qual1 (f : Folder) (t : String) (e : Entry) : Bool :=
  (normWtOpt e.workout_type == t) &&
    (match find_file_by_name e.file f with
     | none => false
     | some c => (normWtOpt (contentWt c) == t) ||
         (contentExercises c).any (fun ex => !(ex.target_muscles.getD []).isEmpty))

/-- Qualification of one manifest entry for the fallback scan: its backing
document exists and strictly matches the type. -/
def lfw_qual2 (f : Folder) (t : String) (e : Entry) : Bool :=
  match find_file_by_name e.file f with
  | none => false
  | some c => normWtOpt (contentWt c) == t

/-- The primary scan returns the first qualifying entry of its input: every
entry it passed over fails `lfw_qual1`, and the returned log is the found
document of the returned meta entry. -/
theorem lfw_scan1_split (f : Folder) (t : String) :
    ∀ (es : List Entry) (r : WorkoutResp), lfw_scan1 f t es = some r →
      ∃ pre suf, es = pre ++ r.meta :: suf ∧
        (∀ e ∈ pre, lfw_qual1 f t e = false) ∧
        find_file_by_name r.meta.file f = some r.log := by
  intro es
  induction es with
  | nil => intro r h; simp [lfw_scan1] at h
  | cons e rest ih =>
    intro r h
    simp only [lfw_scan1] at h
    by_cases h1 : (normWtOpt e.workout_type == t) = true
    · rw [if_pos h1] at h
      cases hf : find_file_by_name e.file f with
      | none =>
        simp only [hf] at h
        obtain ⟨pre, suf, hsplit, hpre, hfind⟩ := ih r h
        refine ⟨e :: pre, suf, by rw [hsplit]; rfl, ?_, hfind⟩
        intro x hx
        rcases List.mem_cons.mp hx with rfl | hx2
        · simp [lfw_qual1, hf]
        · exact hpre x hx2
      | some c =>
        simp only [hf] at h
        by_cases h2 : (normWtOpt (contentWt c) == t) = true
        · rw [if_pos h2] at h
          obtain rfl := Option.some.inj h
          exact ⟨[], rest, rfl, by simp, by simpa using hf⟩
        · rw [if_neg h2] at h
          by_cases h3 : (contentExercises c).any
              (fun ex => !(ex.target_muscles.getD []).isEmpty) = true
          · rw [if_pos h3] at h
            obtain rfl := Option.some.inj h
            exact ⟨[], rest, rfl, by simp, by simpa using hf⟩
          · rw [if_neg h3] at h
            obtain ⟨pre, suf, hsplit, hpre, hfind⟩ := ih r h
            refine ⟨e :: pre, suf, by rw [hsplit]; rfl, ?_, hfind⟩
            intro x hx
            rcases List.mem_cons.mp hx with rfl | hx2
            · simp [lfw_qual1, hf, h2, h3]
            · exact hpre x hx2
    · rw [if_neg h1] at h
      obtain ⟨pre, suf, hsplit, hpre, hfind⟩ := ih r h
      refine ⟨e :: pre, suf, by rw [hsplit]; rfl, ?_, hfind⟩
      intro x hx
      rcases List.mem_cons.mp hx with rfl | hx2
      · simp [lfw_qual1, h1]
      · exact hpre x hx2

/-- The fallback scan returns the first entry whose document exists and
strictly matches: every entry it passed over fails `lfw_qual2`. -/
theorem lfw_scan2_split (f : Folder) (t : String) :
    ∀ (es : List Entry) (r : WorkoutResp), lfw_scan2 f t es = some r →
      ∃ pre suf, es = pre ++ r.meta :: suf ∧
        (∀ e ∈ pre, lfw_qual2 f t e = false) ∧
        find_file_by_name r.meta.file f = some r.log := by
  intro es
  induction es with
  | nil => intro r h; simp [lfw_scan2] at h
  | cons e rest ih =>
    intro r h
    simp only [lfw_scan2] at h
    cases hf : find_file_by_name e.file f with
    | none =>
      simp only [hf] at h
      obtain ⟨pre, suf, hsplit, hpre, hfind⟩ := ih r h
      refine ⟨e :: pre, suf, by rw [hsplit]; rfl, ?_, hfind⟩
      intro x hx
      rcases List.mem_cons.mp hx with rfl | hx2
      · simp [lfw_qual2, hf]
      · exact hpre x hx2
    | some c =>
      simp only [hf] at h
      by_cases h2 : (normWtOpt (contentWt c) == t) = true
      · rw [if_pos h2] at h
        obtain rfl := Option.some.inj h
        exact ⟨[], rest, rfl, by simp, by simpa using hf⟩
      · rw [if_neg h2] at h
        obtain ⟨pre, suf, hsplit, hpre, hfind⟩ := ih r h
        refine ⟨e :: pre, suf, by rw [hsplit]; rfl, ?_, hfind⟩
        intro x hx
        rcases List.mem_cons.mp hx with rfl | hx2
        · simp [lfw_qual2, hf, h2]
        · exact hpre x hx2

/-- In a reversed date-sorted list, the first element satisfying a test --
everything before it in the reversal failing the test -- is a member of the
list and carries the greatest date among all members satisfying the test. -/
theorem first_of_reverse_max {Q : Entry → Bool} {es : List Entry} {x : Entry}
    {pre suf : List Entry} (hs : es.Pairwise entryLe)
    (hsplit : es.reverse = pre ++ x :: suf) (hpre : ∀ e ∈ pre, Q e = false) :
    x ∈ es ∧ ∀ e ∈ es, Q e = true → pyStrLe e.date x.date = true := by
  have hrev : es.reverse.Pairwise (fun a b => entryLe b a) :=
    List.pairwise_reverse.mpr hs
  rw [hsplit] at hrev
  obtain ⟨hp1, hp2, hp3⟩ := List.pairwise_append.mp hrev
  have hsufle : ∀ bE ∈ suf, entryLe bE x :=
    fun bE hb => (List.pairwise_cons.mp hp2).1 bE hb
  constructor
  · rw [← List.mem_reverse, hsplit]
    exact List.mem_append_right _ (List.mem_cons_self _ _)
  · intro e he hQ
    have he2 : e ∈ pre ++ x :: suf := by
      rw [← hsplit]
      exact List.mem_reverse.mpr he
    rcases List.mem_append.mp he2 with hpre2 | hxs
    · rw [hpre e hpre2] at hQ
      exact Bool.noConfusion hQ
    · rcases List.mem_cons.mp hxs with rfl | hsuf
      · exact entryLe_refl e
      · exact hsufle e hsuf

/-- The entry list `latest_for_workout` (and `latest_log`) scans is sorted
by date ascending, before and after the cutoff filter. -/
theorem applyBefore_sorted (b : Option String) (f : Folder) :
    (applyBefore b (load_manifest_entries f)).Pairwise entryLe := by
  unfold applyBefore
  cases b with
  | none => exact load_manifest_entries_sorted f
  | some s =>
    dsimp only
    by_cases hs : s = ""
    · rw [if_pos hs]
      exact load_manifest_entries_sorted f
    · rw [if_neg hs]
      exact (load_manifest_entries_sorted f).filter _

/-- C4 (amended): a 200 response of `GET /logs/latest_for_workout` comes
either from the primary manifest-keyed scan, which walks the remaining
entries newest first and returns the first qualifying one -- so the
returned meta entry matches the type, its document exists and is the
returned log, and no qualifying entry has a greater date; that document
strictly matches the type or merely lists target muscles, so its own
workout_type may differ -- or, only when the primary scan found nothing,
from the fallback scan, which likewise returns the latest document that
strictly matches the type. -/
theorem c4_workout_lookup_amended (f : Folder) (t0 : String) (b : Option String)
    (r : WorkoutResp) (h : latest_for_workout f t0 b = .ok r) :
    (normWtOpt r.meta.workout_type = stripLowerS t0 ∧
      (normWtOpt (contentWt r.log) = stripLowerS t0 ∨
        (contentExercises r.log).any (fun ex => !(ex.target_muscles.getD []).isEmpty) = true) ∧
      find_file_by_name r.meta.file f = some r.log ∧
      r.meta ∈ applyBefore b (load_manifest_entries f) ∧
      (∀ e ∈ applyBefore b (load_manifest_entries f),
        lfw_qual1 f (stripLowerS t0) e = true → pyStrLe e.date r.meta.date = true)) ∨
    (lfw_scan1 f (stripLowerS t0) (applyBefore b (load_manifest_entries f)).reverse = none ∧
      normWtOpt (contentWt r.log) = stripLowerS t0 ∧
      find_file_by_name r.meta.file f = some r.log ∧
      r.meta ∈ applyBefore b (load_manifest_entries f) ∧
      (∀ e ∈ applyBefore b (load_manifest_entries f),
        lfw_qual2 f (stripLowerS t0) e = true → pyStrLe e.date r.meta.date = true)) := by
  unfold latest_for_workout at h
  cases h1 : lfw_scan1 f (stripLowerS t0)
      (applyBefore b (load_manifest_entries f)).reverse with
  | some r1 =>
    simp only [h1] at h
    obtain rfl := Except.ok.inj h
    obtain ⟨hwt, hor⟩ := lfw_scan1_spec f _ _ r1 h1
    obtain ⟨pre, suf, hsplit, hpre, hfind⟩ := lfw_scan1_split f _ _ r1 h1
    obtain ⟨hmem, hmax⟩ := first_of_reverse_max (applyBefore_sorted b f) hsplit hpre
    exact Or.inl ⟨hwt, hor, hfind, hmem, hmax⟩
  | none =>
    simp only [h1] at h
    cases h2 : lfw_scan2 f (stripLowerS t0)
        (applyBefore b (load_manifest_entries f)).reverse with
    | some r2 =>
      simp only [h2] at h
      obtain rfl := Except.ok.inj h
      have hwt := lfw_scan2_spec f _ _ r2 h2
      obtain ⟨pre, suf, hsplit, hpre, hfind⟩ := lfw_scan2_split f _ _ r2 h2
      obtain ⟨hmem, hmax⟩ := first_of_reverse_max (applyBefore_sorted b f) hsplit hpre
      exact Or.inr ⟨rfl, hwt, hfind, hmem, hmax⟩
    | none =>
      simp only [h2] at h
      exact absurd h (by simp)

def c4e1 : Entry := ⟨"2024-01-01", "2024-01-01.json", none, none, none, none, some "push"⟩

def c4e2 : Entry := ⟨"2024-01-02", "2024-01-02.json", none, none, none, none, some "push"⟩

def c4doc1 : WorkoutLog := ⟨2, "2024-01-01", some "push", [⟨"squat", [⟨5, 100⟩], none⟩], none, "s1"⟩

def c4doc2 : WorkoutLog := ⟨2, "2024-01-02", some "pull", [⟨"bench", [⟨5, 100⟩], some ["chest"]⟩], none, "s2"⟩

def c4f : Folder :=
  [("index.json", Content.man ⟨2, [c4e1, c4e2]⟩),
   ("2024-01-01.json", Content.doc c4doc1),
   ("2024-01-02.json", Content.doc c4doc2)]

/-- C4 as stated is false: a strict push match exists (the 2024-01-01
document), yet the handler returns the newer 2024-01-02 document whose own
workout_type is pull, because its manifest entry says push and it lists
target muscles. -/
theorem c4_workout_lookup_counterexample :
    latest_for_workout c4f "push" none = .ok ⟨c4e2, .doc c4doc2⟩ ∧
    normWtOpt (contentWt (.doc c4doc2)) = "pull" ∧
    find_file_by_name "2024-01-01.json" c4f = some (.doc c4doc1) ∧
    normWtOpt (contentWt (.doc c4doc1)) = "push" := by decide

/-- Witness for C4's amended theorem at the concrete counterexample state. -/
theorem c4_workout_lookup_amended_witness :
    (normWtOpt (WorkoutResp.mk c4e2 (.doc c4doc2)).meta.workout_type = stripLowerS "push" ∧
      (normWtOpt (contentWt (WorkoutResp.mk c4e2 (.doc c4doc2)).log) = stripLowerS "push" ∨
        (contentExercises (WorkoutResp.mk c4e2 (.doc c4doc2)).log).any
          (fun ex => !(ex.target_muscles.getD []).isEmpty) = true) ∧
      find_file_by_name (WorkoutResp.mk c4e2 (.doc c4doc2)).meta.file c4f =
        some (WorkoutResp.mk c4e2 (.doc c4doc2)).log ∧
      (WorkoutResp.mk c4e2 (.doc c4doc2)).meta ∈ applyBefore none (load_manifest_entries c4f) ∧
      (∀ e ∈ applyBefore none (load_manifest_entries c4f),
        lfw_qual1 c4f (stripLowerS "push") e = true →
          pyStrLe e.date (WorkoutResp.mk c4e2 (.doc c4doc2)).meta.date = true)) ∨
    (lfw_scan1 c4f (stripLowerS "push")
        (applyBefore none (load_manifest_entries c4f)).reverse = none ∧
      normWtOpt (contentWt (WorkoutResp.mk c4e2 (.doc c4doc2)).log) = stripLowerS "push" ∧
      find_file_by_name (WorkoutResp.mk c4e2 (.doc c4doc2)).meta.file c4f =
        some (WorkoutResp.mk c4e2 (.doc c4doc2)).log ∧
      (WorkoutResp.mk c4e2 (.doc c4doc2)).meta ∈ applyBefore none (load_manifest_entries c4f) ∧
      (∀ e ∈ applyBefore none (load_manifest_entries c4f),
        lfw_qual2 c4f (stripLowerS "push") e = true →
          pyStrLe e.date (WorkoutResp.mk c4e2 (.doc c4doc2)).meta.date = true)) :=
  c4_workout_lookup_amended c4f "push" none ⟨c4e2, .doc c4doc2⟩ (by decide)

/-! ### Claim C6 -/

/-- C6 (amended): every no-match outcome is a 404, but only
`GET /logs/latest` carries a static message ("No logs found"); the by-date,
workout-type and muscle handlers interpolate the request's date, normalized
type, and raw muscle into their 404 details (`fetch_log` may also answer
the path-pattern 422). -/
theorem c6_not_found_messages (f : Folder) :
    (∀ (b : Option String) (err : HTTPException),
        latest_log f b = .error err → err = ⟨404, "No logs found"⟩) ∧
    (∀ (d : String) (err : HTTPException),
        fetch_log f d = .error err →
          err = ⟨404, "No log for " ++ d⟩ ∨
          err = ⟨422, "path parameter does not match pattern"⟩) ∧
    (∀ (t : String) (b : Option String) (err : HTTPException),
        latest_for_workout f t b = .error err →
          err = ⟨404, "No logs found for workout_type '" ++ stripLowerS t ++ "'"⟩) ∧
    (∀ (m : String) (b : Option String) (err : HTTPException),
        latest_for_muscle f m b = .error err →
          err = ⟨404, "No logs found containing muscle '" ++ m ++ "'"⟩) := by
  refine ⟨?_, ?_, ?_, ?_⟩
  · intro b err h
    unfold latest_log at h
    cases hl : (applyBefore b (load_manifest_entries f)).getLast? with
    | none =>
      simp only [hl] at h
      exact (Except.error.inj h).symm
    | some e =>
      simp only [hl] at h
      cases hf : find_file_by_name e.file f with
      | none => simp only [hf] at h; exact absurd h (by simp)
      | some c => simp only [hf] at h; exact absurd h (by simp)
  · intro d err h
    unfold fetch_log at h
    by_cases hp : datePattern d = true
    · rw [if_pos hp] at h
      cases hf : find_file_by_name (d ++ ".json") f with
      | none => simp only [hf] at h; exact Or.inl (Except.error.inj h).symm
      | some c => simp only [hf] at h; exact absurd h (by simp)
    · rw [if_neg hp] at h
      exact Or.inr (Except.error.inj h).symm
  · intro t b err h
    unfold latest_for_workout at h
    cases h1 : lfw_scan1 f (stripLowerS t)
        (applyBefore b (load_manifest_entries f)).reverse with
    | some r => simp only [h1] at h; exact absurd h (by simp)
    | none =>
      simp only [h1] at h
      cases h2 : lfw_scan2 f (stripLowerS t)
          (applyBefore b (load_manifest_entries f)).reverse with
      | some r => simp only [h2] at h; exact absurd h (by simp)
      | none => simp only [h2] at h; exact (Except.error.inj h).symm
  · intro m b err h
    unfold latest_for_muscle at h
    cases h1 : lfm_scan f (stripLowerS m)
        (applyBefore b (load_manifest_entries f)).reverse with
    | some r => simp only [h1] at h; exact absurd h (by simp)
    | none => simp only [h1] at h; exact (Except.error.inj h).symm

/-- C6 as stated is false: two different muscle queries with no match
produce different 404 messages -- the detail is not static. -/
theorem c6_not_found_messages_counterexample :
    latest_for_muscle [] "biceps" none =
      .error ⟨404, "No logs found containing muscle 'biceps'"⟩ ∧
    latest_for_muscle [] "triceps" none =
      .error ⟨404, "No logs found containing muscle 'triceps'"⟩ ∧
    ("No logs found containing muscle 'biceps'" : String) ≠
      "No logs found containing muscle 'triceps'" := by decide

/-- Witness for C6's amended theorem at a concrete 404. -/
theorem c6_not_found_messages_witness :
    (HTTPException.mk 404 "No logs found containing muscle 'm0'") =
      ⟨404, "No logs found containing muscle '" ++ "m0" ++ "'"⟩ :=
  (c6_not_found_messages []).2.2.2 "m0" none
    ⟨404, "No logs found containing muscle 'm0'"⟩ (by decide)


/-! ### Claim C8: normalisation machinery for strip and lower -/

theorem lookupLower_mem : ∀ (ps : List (Char × Char)) (c l : Char),
    lookupLower c ps = some l → (c, l) ∈ ps := by
  intro ps
  induction ps with
  | nil => intro c l h; simp [lookupLower] at h
  | cons q rest ih =>
    intro c l h
    obtain ⟨u, w⟩ := q
    simp only [lookupLower] at h
    by_cases hc : c = u
    · rw [if_pos hc] at h
      obtain rfl := Option.some.inj h
      rw [hc]
      exact List.mem_cons_self _ _
    · rw [if_neg hc] at h
      exact List.mem_cons_of_mem _ (ih c l h)

theorem lowerPairs_fact : ∀ p ∈ lowerPairs,
    lookupLower p.2 lowerPairs = none ∧ pyIsSpace p.2 = false ∧ pyIsSpace p.1 = false := by
  decide

theorem asciiLower_idem (c : Char) : asciiLower (asciiLower c) = asciiLower c := by
  cases h : lookupLower c lowerPairs with
  | none => simp [asciiLower, h]
  | some l =>
    have hfact := lowerPairs_fact _ (lookupLower_mem lowerPairs c l h)
    simp [asciiLower, h, hfact.1]

theorem pyIsSpace_asciiLower (c : Char) : pyIsSpace (asciiLower c) = pyIsSpace c := by
  cases h : lookupLower c lowerPairs with
  | none => simp [asciiLower, h]
  | some l =>
    have hfact := lowerPairs_fact _ (lookupLower_mem lowerPairs c l h)
    simp [asciiLower, h, hfact.2.1, hfact.2.2]

theorem pyLowerL_idem (l : List Char) : pyLowerL (pyLowerL l) = pyLowerL l := by
  unfold pyLowerL
  induction l with
  | nil => rfl
  | cons c t ih =>
    simp only [List.map_cons, asciiLower_idem]
    exact congrArg _ ih

theorem dropWhile_pyLowerL (l : List Char) :
    (l.map asciiLower).dropWhile pyIsSpace = (l.dropWhile pyIsSpace).map asciiLower := by
  induction l with
  | nil => rfl
  | cons c t ih =>
    simp only [List.map_cons, List.dropWhile_cons, pyIsSpace_asciiLower]
    by_cases h : pyIsSpace c = true
    · simp [h, ih]
    · simp [h]

theorem pyStripL_pyLowerL (l : List Char) :
    pyStripL (pyLowerL l) = pyLowerL (pyStripL l) := by
  unfold pyStripL pyLowerL
  rw [dropWhile_pyLowerL, ← List.map_reverse, dropWhile_pyLowerL, List.map_reverse]

theorem dropWhile_head_not (p : Char → Bool) :
    ∀ (l : List Char) (c : Char) (t : List Char), l.dropWhile p = c :: t → p c = false := by
  intro l
  induction l with
  | nil => intro c t h; simp at h
  | cons a q ih =>
    intro c t h
    rw [List.dropWhile_cons] at h
    by_cases ha : p a = true
    · rw [if_pos ha] at h
      exact ih c t h
    · rw [if_neg ha] at h
      obtain ⟨rfl, _⟩ := List.cons.inj h
      simpa using ha

theorem dropWhile_eq_self_of_head {p : Char → Bool} {l : List Char}
    (h : ∀ c t, l = c :: t → p c = false) : l.dropWhile p = l := by
  cases l with
  | nil => rfl
  | cons c t =>
    rw [List.dropWhile_cons, if_neg]
    simp [h c t rfl]

theorem dropWhile_idem (p : Char → Bool) (l : List Char) :
    (l.dropWhile p).dropWhile p = l.dropWhile p := by
  apply dropWhile_eq_self_of_head
  intro c t h
  exact dropWhile_head_not p l c t h

theorem getLast?_dropWhile (p : Char → Bool) :
    ∀ (l : List Char) (x : Char), l.getLast? = some x → p x = false →
      (l.dropWhile p).getLast? = some x := by
  intro l
  induction l with
  | nil => intro x h _; simp at h
  | cons a q ih =>
    intro x h hx
    cases q with
    | nil =>
      simp only [List.getLast?_singleton, Option.some.injEq] at h
      subst h
      simp [List.dropWhile_cons, hx]
    | cons b q2 =>
      rw [List.getLast?_cons_cons] at h
      rw [List.dropWhile_cons]
      by_cases ha : p a = true
      · rw [if_pos ha]
        exact ih x h hx
      · rw [if_neg ha]
        rw [List.getLast?_cons_cons]
        exact h

theorem pyStripL_idem (l : List Char) : pyStripL (pyStripL l) = pyStripL l := by
  unfold pyStripL
  cases hu : l.dropWhile pyIsSpace with
  | nil => simp
  | cons c t =>
    have hc : pyIsSpace c = false := dropWhile_head_not pyIsSpace l c t hu
    have hlast : ((c :: t).reverse.dropWhile pyIsSpace).getLast? = some c := by
      apply getLast?_dropWhile
      · rw [List.getLast?_reverse]
        rfl
      · exact hc
    have hhead : (((c :: t).reverse.dropWhile pyIsSpace).reverse).dropWhile pyIsSpace =
        ((c :: t).reverse.dropWhile pyIsSpace).reverse := by
      apply dropWhile_eq_self_of_head
      intro d t2 hd
      have : (((c :: t).reverse.dropWhile pyIsSpace).reverse).head? = some d := by
        rw [hd]; rfl
      rw [List.head?_reverse, hlast] at this
      obtain rfl := Option.some.inj this
      exact hc
    rw [hhead, List.reverse_reverse, dropWhile_idem]

theorem stripLowerS_strip_fixed (x : String) : pyStrip (stripLowerS x) = stripLowerS x := by
  unfold stripLowerS pyStrip pyLower
  have : pyStripL (pyLowerL (pyStripL x.data)) = pyLowerL (pyStripL x.data) := by
    rw [pyStripL_pyLowerL, pyStripL_idem]
  exact congrArg String.mk this

theorem stripLowerS_lower_fixed (x : String) : pyLower (stripLowerS x) = stripLowerS x := by
  unfold stripLowerS pyLower pyStrip
  exact congrArg String.mk (pyLowerL_idem (pyStripL x.data))

theorem latest_for_muscle_toOption (f : Folder) (b : Option String) (m : String) :
    (latest_for_muscle f m b).toOption =
      lfm_scan f (stripLowerS m) (applyBefore b (load_manifest_entries f)).reverse := by
  simp only [latest_for_muscle]
  cases h : lfm_scan f (stripLowerS m) (applyBefore b (load_manifest_entries f)).reverse with
  | some r => simp [h, Except.toOption]
  | none => simp [h, Except.toOption]

/-- C8: every stored target-muscle label is normalized -- it is a fixed
point of both `strip` and `lower` -- and the muscle lookup depends on the
query only through its normalisation, so matching is case- and
whitespace-insensitive in both the stored labels and the query. -/
theorem c8_muscle_normalization :
    (∀ (v ms : List String), muscles_norm (some v) = some ms →
      ∀ m ∈ ms, pyStrip m = m ∧ pyLower m = m) ∧
    (∀ (f : Folder) (b : Option String) (q1 q2 : String),
      stripLowerS q1 = stripLowerS q2 →
        (latest_for_muscle f q1 b).toOption = (latest_for_muscle f q2 b).toOption) := by
  constructor
  · intro v ms hms m hm
    simp only [muscles_norm, Option.some.injEq] at hms
    subst hms
    obtain ⟨x, _, rfl⟩ := List.mem_map.mp hm
    exact ⟨stripLowerS_strip_fixed x, stripLowerS_lower_fixed x⟩
  · intro f b q1 q2 hq
    rw [latest_for_muscle_toOption, latest_for_muscle_toOption, hq]

/-- Witness for C8 at a concrete muscle list and a concrete query pair. -/
theorem c8_muscle_normalization_witness :
    (pyStrip "chest" = "chest" ∧ pyLower "chest" = "chest") ∧
    (latest_for_muscle [] " CHEST " none).toOption =
      (latest_for_muscle [] "chest" none).toOption :=
  ⟨c8_muscle_normalization.1 ["  ChEsT "] ["chest"] (by decide) "chest" (by decide),
   c8_muscle_normalization.2 [] none " CHEST " "chest" (by decide)⟩

/-! ### Claim C9 -/

/-- C9: the `at_least_one_set` validator accepts an exercises list exactly
when some exercise in it has a non-empty sets list; empty lists and lists
whose exercises all have empty sets are rejected. -/
theorem c9_at_least_one_set (v : List Exercise) :
    at_least_one_set v = true ↔ ∃ e ∈ v, e.sets ≠ [] := by
  simp only [at_least_one_set, Bool.not_eq_true', Bool.or_eq_false_iff, Bool.not_eq_false,
    List.any_eq_true, Bool.not_eq_true, List.isEmpty_eq_false_iff_exists_mem, ne_eq]
  simp [List.isEmpty_iff]
  intro x hx hs
  exact ⟨x, hx⟩

example : date_iso "2024-01-31" = true := by decide
example : date_iso "2024-1-1" = true := by decide
example : date_iso "2024-13-01" = false := by decide
example : date_iso "2023-02-29" = false := by decide
example : date_iso "2024-02-29" = true := by decide
example : date_iso "0000-01-01" = false := by decide
example : date_iso "2024-01-001" = false := by decide
example : datePattern "2024-01-31" = true := by decide
example : datePattern "2024-1-1" = false := by decide

end Ironlog

